import Mathlib

/-!
Shallow embedding of the availability-ranking engine of the planner
repository: the generic rank-assignment utility, the preference
aggregation, the five ranking criteria and the label cascade, together
with theorems settling the specification claims about them.
-/

namespace Planner

/-- An option (candidate date) as passed to the engine. -/
structure EventOption where
  id : String
  date : String
  deriving DecidableEq, Repr

/-- One (option, preference, uncertain) entry within a response. -/
structure SelectedOption where
  preference : Int
  uncertain : Bool
  optionId : String
  deriving DecidableEq, Repr

/-- The respondent data visible to the engine. -/
structure Respondent where
  name : Option String
  deriving DecidableEq, Repr

/-- One respondent's full set of per-option preferences. -/
structure Response where
  respondent : Respondent
  selectedOptions : List SelectedOption
  deriving DecidableEq, Repr

/-- Model of a JavaScript `Map`: an association list in key-insertion order. -/
abbrev JsMap (κ ν : Type) : Type := List (κ × ν)

/-- `Map.prototype.get`: the value stored at `k`, if any. -/
def mget {κ ν : Type} [DecidableEq κ] (m : JsMap κ ν) (k : κ) : Option ν :=
  match m with
  | [] => none
  | kv :: rest => if kv.1 = k then some kv.2 else mget rest k

/-- `Map.prototype.set`: update in place when `k` is present, append otherwise. -/
def mset {κ ν : Type} [DecidableEq κ] (m : JsMap κ ν) (k : κ) (v : ν) : JsMap κ ν :=
  match m with
  | [] => [(k, v)]
  | kv :: rest => if kv.1 = k then (k, v) :: rest else kv :: mset rest k v

/-- `responsePreferenceCardianlity` from the source: for each option id, a
tally mapping each preference value to the number of selections recording it. -/
def cardStep (acc : JsMap String (JsMap Int Nat)) (opt : SelectedOption) :
    JsMap String (JsMap Int Nat) :=
  let pref := (mget acc opt.optionId).getD []
  mset acc opt.optionId
    (mset pref opt.preference ((mget pref opt.preference).getD 0 + 1))

def responsePreferenceCardianlity (allChosenOptions : List SelectedOption) :
    JsMap String (JsMap Int Nat) :=
  allChosenOptions.foldl cardStep []

/-- An item paired with its computed rank. -/
structure Ranked (α : Type) where
  item : α
  rank : Nat
  deriving DecidableEq, Repr

/-- The rank-assignment loop of `rankByComparator`: walking the sorted list,
an item receives the previous item's rank when the comparator returns 0 and
the previous rank + 1 otherwise. -/
def rankFrom {α : Type} (fn : α → α → Int) (prev : α) (prevRank : Nat) :
    List α → List (Ranked α)
  | [] => []
  | x :: xs =>
    let r := if fn x prev = 0 then prevRank else prevRank + 1
    ⟨x, r⟩ :: rankFrom fn x r xs

/-- Dense rank assignment over an already-sorted list: the first item keeps
rank 0 (its index), each later one is ranked by `rankFrom`. -/
def assignRanks {α : Type} (fn : α → α → Int) : List α → List (Ranked α)
  | [] => []
  | x :: xs => ⟨x, 0⟩ :: rankFrom fn x 0 xs

/-- `rankByComparator` from the source: sort a copy of the array by the
three-way comparator (JavaScript's stable sort modelled as insertion sort on
the relation "comparator ≤ 0"), then assign dense ranks. -/
def rankByComparator {α : Type} (arr : List α) (fn : α → α → Int) :
    List (Ranked α) :=
  assignRanks fn (List.insertionSort (fun a b => fn a b ≤ 0) arr)

/-- `sortOrderToComparator` from the source: absent keys compare equal to each
other and after any present key; present keys compare by subtraction. -/
def sortOrderToComparator {α : Type} (f : α → Option Int) : α → α → Int :=
  fun a b =>
    match f a, f b with
    | none, none => 0
    | none, some _ => 1
    | some _, none => -1
    | some aVal, some bVal => aVal - bVal

/-- `rankBySortOrder` from the source. -/
def rankBySortOrder {α : Type} (arr : List α) (fn : α → Option Int) :
    List (Ranked α) :=
  rankByComparator arr (sortOrderToComparator fn)

/-- The five derived ranks attached to an option. -/
structure RankLabels where
  leastNumberOfNosRank : Nat
  leastNumberOfNosMaybesRank : Nat
  bestScoreRank : Nat
  overallRank : Nat
  strictlySuperiorRank : Nat
  deriving DecidableEq, Repr

/-- The closed label enumeration. -/
inductive Label where
  | BestOverall
  | SecondBest
  | MostPreferred
  | FewestNos
  | FewestNosMaybes
  | Nothing
  | Suboptimal
  deriving DecidableEq, Repr

/-- `determineMostSignificantLabel` from the source: the first-match-wins
priority cascade from a rank tuple and the option count to a label. -/
def determineMostSignificantLabel (rl : RankLabels) (numberOfOptions : Nat) :
    Label :=
  if rl.overallRank = 0 then Label.BestOverall
  else if rl.overallRank = 1 ∧ numberOfOptions > 2 then Label.SecondBest
  else if rl.bestScoreRank = 0 then Label.MostPreferred
  else if rl.leastNumberOfNosRank = 0 then Label.FewestNos
  else if rl.leastNumberOfNosMaybesRank = 0 then Label.FewestNosMaybes
  else if rl.strictlySuperiorRank > 0 then Label.Suboptimal
  else Label.Nothing

/-- Ordering key of the fewest-nos criterion: the tally count at preference
−1, zero when that entry is missing, absent when the whole tally is absent. -/
def leastNumberOfNosKey (card : JsMap String (JsMap Int Nat))
    (x : EventOption) : Option Int :=
  match mget card x.id with
  | none => none
  | some val => some (((mget val (-1)).getD 0 : Nat) : Int)

/-- Ordering key of the fewest-nos-and-maybes criterion: count(−1) + count(0),
absent when the tally is absent. -/
def leastNumberOfNosMaybesKey (card : JsMap String (JsMap Int Nat))
    (x : EventOption) : Option Int :=
  match mget card x.id with
  | none => none
  | some val =>
    some ((((mget val (-1)).getD 0 + (mget val 0).getD 0 : Nat)) : Int)

/-- Ordering key of the best-score criterion: minus the weighted sum of the
tally entries, absent when the tally is absent. -/
def bestScoreKey (card : JsMap String (JsMap Int Nat))
    (x : EventOption) : Option Int :=
  match mget card x.id with
  | none => none
  | some val =>
    some (-(val.foldl (fun acc kv => acc + kv.1 * (kv.2 : Int)) 0))

/-- Look a rank up by option id in a ranked list (the `find` by id pattern of
the source, with `assertNotNull` failure modelled as `none`). -/
def findRank (l : List (Ranked EventOption)) (id : String) : Option Nat :=
  (l.find? (fun y => y.item.id == id)).map (fun y => y.rank)

/-- The overall aggregate of `labelResponses`: the components listed least- to
most-significant (best-score, fewest-nos-and-maybes, fewest-nos), each mapped
to `i * numberOfOptions + rank` and summed. -/
def aggregateRankScore (numberOfOptions bestScoreRank
    leastNumberOfNosMaybesRank leastNumberOfNosRank : Nat) : Nat :=
  0 + (0 * numberOfOptions + bestScoreRank)
    + (1 * numberOfOptions + leastNumberOfNosMaybesRank)
    + (2 * numberOfOptions + leastNumberOfNosRank)

/-- The sort key of the overall criterion: the aggregate of the three
component ranks looked up by option id (always a present key; the lookups
themselves are guarded by `ranksFound` in `labelResponses`). -/
def overallKey (numberOfOptions : Nat)
    (bestScore leastNumberOfNosMaybes leastNumberOfNos : List (Ranked EventOption))
    (x : EventOption) : Option Int :=
  some ((aggregateRankScore numberOfOptions
    ((findRank bestScore x.id).getD 0)
    ((findRank leastNumberOfNosMaybes x.id).getD 0)
    ((findRank leastNumberOfNos x.id).getD 0) : Nat) : Int)

/-- The pairwise dominance comparator of `labelResponses`: componentwise
differences of the three ranks; all ≤ 0 and not all 0 means strictly
superior (−1), all ≥ 0 means strictly inferior (1), mixed signs mean
incomparable (0). The id lookups follow the `assertNotNull` pattern and are
guarded by `ranksFound` in `labelResponses`. -/
def strictlySuperiorComp
    (leastNumberOfNos leastNumberOfNosMaybes bestScore : List (Ranked EventOption))
    (a b : EventOption) : Int :=
  let nosComp : Int := ((findRank leastNumberOfNos a.id).getD 0 : Int)
    - ((findRank leastNumberOfNos b.id).getD 0 : Int)
  let nosMaybesComp : Int := ((findRank leastNumberOfNosMaybes a.id).getD 0 : Int)
    - ((findRank leastNumberOfNosMaybes b.id).getD 0 : Int)
  let scoreComp : Int := ((findRank bestScore a.id).getD 0 : Int)
    - ((findRank bestScore b.id).getD 0 : Int)
  if nosComp = 0 ∧ nosMaybesComp = 0 ∧ scoreComp = 0 then 0
  else if nosComp ≤ 0 ∧ nosMaybesComp ≤ 0 ∧ scoreComp ≤ 0 then -1
  else if nosComp ≥ 0 ∧ nosMaybesComp ≥ 0 ∧ scoreComp ≥ 0 then 1
  else 0

/-- `responses.flatMap((x) => x.selectedOptions)`. -/
def allChosen (responses : List Response) : List SelectedOption :=
  responses.flatMap (fun x => x.selectedOptions)

/-- The aggregated tally of `labelResponses`. -/
def cardOf (responses : List Response) : JsMap String (JsMap Int Nat) :=
  responsePreferenceCardianlity (allChosen responses)

/-- The fewest-nos ranking of `labelResponses`, as a function of the tally. -/
def leastNumberOfNosList (options : List EventOption)
    (card : JsMap String (JsMap Int Nat)) : List (Ranked EventOption) :=
  rankBySortOrder options (leastNumberOfNosKey card)

/-- The fewest-nos-and-maybes ranking of `labelResponses`. -/
def leastNumberOfNosMaybesList (options : List EventOption)
    (card : JsMap String (JsMap Int Nat)) : List (Ranked EventOption) :=
  rankBySortOrder options (leastNumberOfNosMaybesKey card)

/-- The best-score ranking of `labelResponses`. -/
def bestScoreList (options : List EventOption)
    (card : JsMap String (JsMap Int Nat)) : List (Ranked EventOption) :=
  rankBySortOrder options (bestScoreKey card)

/-- Whether every rank lookup by option id performed inside the overall key
and the dominance comparator succeeds; in the source a failed lookup throws
("Could not find rank" / `assertNotNull`), which the embedding models as a
`none` result of the whole computation. -/
def ranksFound (options : List EventOption)
    (card : JsMap String (JsMap Int Nat)) : Bool :=
  options.all (fun x =>
    (findRank (leastNumberOfNosList options card) x.id).isSome
    && (findRank (leastNumberOfNosMaybesList options card) x.id).isSome
    && (findRank (bestScoreList options card) x.id).isSome)

/-- The overall ranking of `labelResponses`. -/
def overallList (options : List EventOption)
    (card : JsMap String (JsMap Int Nat)) : List (Ranked EventOption) :=
  rankBySortOrder options
    (overallKey options.length
      (bestScoreList options card)
      (leastNumberOfNosMaybesList options card)
      (leastNumberOfNosList options card))

/-- The dominance ranking of `labelResponses`. -/
def strictlySuperiorList (options : List EventOption)
    (card : JsMap String (JsMap Int Nat)) : List (Ranked EventOption) :=
  rankByComparator options
    (strictlySuperiorComp
      (leastNumberOfNosList options card)
      (leastNumberOfNosMaybesList options card)
      (bestScoreList options card))

/-- The five ranks the source gathers for one option id in the final map
construction, in the source lookup order; `none` when any lookup fails. -/
def rankLabelsFor (options : List EventOption)
    (card : JsMap String (JsMap Int Nat)) (id : String) : Option RankLabels := do
  let leastNumberOfNosMaybesRank ←
    findRank (leastNumberOfNosMaybesList options card) id
  let leastNumberOfNosRank ← findRank (leastNumberOfNosList options card) id
  let bestScoreRank ← findRank (bestScoreList options card) id
  let overallRank ← findRank (overallList options card) id
  let strictlySuperiorRank ←
    findRank (strictlySuperiorList options card) id
  pure ⟨leastNumberOfNosRank, leastNumberOfNosMaybesRank, bestScoreRank,
    overallRank, strictlySuperiorRank⟩

/-- A `map` whose entries may be missing: `some` of all images when every
application succeeds, `none` as soon as one fails (the thrown error of the
source final construction). -/
def tryMap {α β : Type} (f : α → Option β) : List α → Option (List β)
  | [] => some []
  | x :: xs =>
    match f x, tryMap f xs with
    | some y, some ys => some (y :: ys)
    | _, _ => none

/-- `labelResponses` from the source: the full pipeline from options and
responses to the map from option id to rank tuple. Any thrown error
("Could not find rank", `assertNotNull`) is modelled as `none`. -/
def labelResponses (options : List EventOption) (responses : List Response) :
    Option (JsMap String RankLabels) :=
  let card := cardOf responses
  if ranksFound options card then
    (tryMap (fun id => (rankLabelsFor options card id).map (fun rl => (id, rl)))
        (options.map (fun x => x.id)))
      |>.map (fun items => items.foldl (fun m kv => mset m kv.1 kv.2) [])
  else none

/-! ### Structure of the rank-assignment utility -/

theorem rankFrom_map_item {α : Type} (fn : α → α → Int) (prev : α)
    (prevRank : Nat) (l : List α) :
    (rankFrom fn prev prevRank l).map (fun p => p.item) = l := by
  induction l generalizing prev prevRank with
  | nil => rfl
  | cons x xs ih => simp [rankFrom, ih]

theorem assignRanks_map_item {α : Type} (fn : α → α → Int) (l : List α) :
    (assignRanks fn l).map (fun p => p.item) = l := by
  cases l with
  | nil => rfl
  | cons x xs => simp [assignRanks, rankFrom_map_item]

theorem rankByComparator_items_perm {α : Type} (arr : List α)
    (fn : α → α → Int) :
    ((rankByComparator arr fn).map (fun p => p.item)).Perm arr := by
  rw [rankByComparator, assignRanks_map_item]
  exact List.perm_insertionSort _ arr

theorem rankFrom_rank_ge {α : Type} {fn : α → α → Int} {prev : α}
    {prevRank : Nat} {l : List α} {p : Ranked α}
    (hp : p ∈ rankFrom fn prev prevRank l) : prevRank ≤ p.rank := by
  induction l generalizing prev prevRank with
  | nil => simp [rankFrom] at hp
  | cons x xs ih =>
    simp only [rankFrom, List.mem_cons] at hp
    rcases hp with h | h
    · subst h
      dsimp only
      split <;> omega
    · have := ih h
      split at this <;> omega

theorem rankFrom_rank_le {α : Type} {fn : α → α → Int} {prev : α}
    {prevRank : Nat} {l : List α} {p : Ranked α}
    (hp : p ∈ rankFrom fn prev prevRank l) : p.rank ≤ prevRank + l.length := by
  induction l generalizing prev prevRank with
  | nil => simp [rankFrom] at hp
  | cons x xs ih =>
    simp only [rankFrom, List.mem_cons] at hp
    rcases hp with h | h
    · subst h
      dsimp only
      split <;> simp <;> omega
    · have := ih h
      simp only [List.length_cons]
      split at this <;> omega

theorem assignRanks_rank_lt {α : Type} {fn : α → α → Int} {l : List α}
    {p : Ranked α} (hp : p ∈ assignRanks fn l) : p.rank < l.length := by
  cases l with
  | nil => simp [assignRanks] at hp
  | cons x xs =>
    simp only [assignRanks, List.mem_cons] at hp
    rcases hp with h | h
    · subst h; simp
    · have := rankFrom_rank_le h
      simp only [List.length_cons]
      omega

/-- The chained step relation of the rank loop: the next item keeps the
previous rank exactly when the comparator returns 0, and gets the previous
rank + 1 otherwise. -/
def rankStep {α : Type} (fn : α → α → Int) (p q : Ranked α) : Prop :=
  q.rank = if fn q.item p.item = 0 then p.rank else p.rank + 1

theorem rankFrom_chain {α : Type} (fn : α → α → Int) (prev : α)
    (prevRank : Nat) (l : List α) :
    List.Chain' (rankStep fn) (⟨prev, prevRank⟩ :: rankFrom fn prev prevRank l) := by
  induction l generalizing prev prevRank with
  | nil => simp [rankFrom]
  | cons x xs ih =>
    simp only [rankFrom]
    exact List.Chain'.cons rfl (ih x _)

theorem assignRanks_chain {α : Type} (fn : α → α → Int) (l : List α) :
    List.Chain' (rankStep fn) (assignRanks fn l) := by
  cases l with
  | nil => simp [assignRanks]
  | cons x xs => exact rankFrom_chain fn x 0 xs

theorem rankStep_le {α : Type} {fn : α → α → Int} {p q : Ranked α}
    (h : rankStep fn p q) : p.rank ≤ q.rank := by
  unfold rankStep at h
  split at h <;> omega

theorem assignRanks_head {α : Type} (fn : α → α → Int) (x : α) (xs : List α) :
    (assignRanks fn (x :: xs)).head? = some ⟨x, 0⟩ := rfl

/-! ### The order induced by a nullable sort key -/

/-- The sort order a nullable key induces: absent keys sort after every
present key and tie with each other; present keys sort by value. -/
def kle : Option Int → Option Int → Prop
  | _, none => True
  | none, some _ => False
  | some a, some b => a ≤ b

theorem kle_refl (x : Option Int) : kle x x := by
  cases x <;> simp [kle]

theorem kle_trans {x y z : Option Int} (h₁ : kle x y) (h₂ : kle y z) :
    kle x z := by
  cases x <;> cases y <;> cases z <;> simp_all [kle] <;> omega

theorem kle_total (x y : Option Int) : kle x y ∨ kle y x := by
  cases x <;> cases y <;> simp [kle] <;> omega

theorem kle_antisymm {x y : Option Int} (h₁ : kle x y) (h₂ : kle y x) :
    x = y := by
  cases x <;> cases y <;> simp_all [kle] <;> omega

theorem comp_le_zero_iff {α : Type} (f : α → Option Int) (a b : α) :
    sortOrderToComparator f a b ≤ 0 ↔ kle (f a) (f b) := by
  unfold sortOrderToComparator
  rcases ha : f a with _ | x <;> rcases hb : f b with _ | y <;> simp [kle] <;> omega

theorem comp_eq_zero_iff {α : Type} (f : α → Option Int) (a b : α) :
    sortOrderToComparator f a b = 0 ↔ f a = f b := by
  unfold sortOrderToComparator
  rcases ha : f a with _ | x <;> rcases hb : f b with _ | y <;> simp <;> omega

/-! ### Rank 0 means tied with the first sorted item -/

theorem rankFrom_rank_zero {α : Type} {fn : α → α → Int}
    (htr : ∀ a b c, fn a b = 0 → fn b c = 0 → fn a c = 0)
    {hd prev : α} (hprev : fn prev hd = 0) {t : List α} {p : Ranked α}
    (hp : p ∈ rankFrom fn prev 0 t) (h0 : p.rank = 0) : fn p.item hd = 0 := by
  induction t generalizing prev with
  | nil => simp [rankFrom] at hp
  | cons x xs ih =>
    simp only [rankFrom, List.mem_cons] at hp
    by_cases hx : fn x prev = 0
    · rcases hp with h | h
      · subst h
        exact htr x prev hd hx hprev
      · rw [if_pos hx] at h
        exact ih (htr x prev hd hx hprev) h
    · rcases hp with h | h
      · subst h
        simp [hx] at h0
      · rw [if_neg hx] at h
        have := rankFrom_rank_ge h
        omega

theorem assignRanks_rank_zero {α : Type} {fn : α → α → Int}
    (htr : ∀ a b c, fn a b = 0 → fn b c = 0 → fn a c = 0)
    (hrefl : ∀ a, fn a a = 0)
    {x : α} {xs : List α} {p : Ranked α}
    (hp : p ∈ assignRanks fn (x :: xs)) (h0 : p.rank = 0) : fn p.item x = 0 := by
  simp only [assignRanks, List.mem_cons] at hp
  rcases hp with h | h
  · subst h; exact hrefl x
  · exact rankFrom_rank_zero htr (hrefl x) h h0

/-- In a key-based ranking, an item whose key is strictly above the key of
some member of the array never receives rank 0. -/
theorem rank_ne_zero_of_klt {α : Type} {arr : List α} {f : α → Option Int}
    {x : α} {p : Ranked α} (hx : x ∈ arr) (hp : p ∈ rankBySortOrder arr f)
    (hle : kle (f x) (f p.item)) (hne : f x ≠ f p.item) : p.rank ≠ 0 := by
  intro h0
  rw [rankBySortOrder, rankByComparator] at hp
  rcases hs : List.insertionSort
      (fun a b => sortOrderToComparator f a b ≤ 0) arr with _ | ⟨hd, t⟩
  · rw [hs] at hp; simp [assignRanks] at hp
  · rw [hs] at hp
    have htr : ∀ a b c, sortOrderToComparator f a b = 0 →
        sortOrderToComparator f b c = 0 → sortOrderToComparator f a c = 0 := by
      intro a b c h₁ h₂
      rw [comp_eq_zero_iff] at h₁ h₂ ⊢
      rw [h₁, h₂]
    have hrefl : ∀ a, sortOrderToComparator f a a = 0 := by
      intro a; rw [comp_eq_zero_iff]
    have hhead : f p.item = f hd := by
      have := assignRanks_rank_zero htr hrefl hp h0
      rwa [comp_eq_zero_iff] at this
    haveI : IsTotal α (fun a b => sortOrderToComparator f a b ≤ 0) := by
      constructor
      intro a b
      rw [comp_le_zero_iff, comp_le_zero_iff]
      exact kle_total (f a) (f b)
    haveI : IsTrans α (fun a b => sortOrderToComparator f a b ≤ 0) := by
      constructor
      intro a b c h₁ h₂
      rw [comp_le_zero_iff] at h₁ h₂ ⊢
      exact kle_trans h₁ h₂
    have hsorted := List.sorted_insertionSort
      (fun a b => sortOrderToComparator f a b ≤ 0) arr
    rw [hs, List.sorted_cons] at hsorted
    have hxmem : x ∈ hd :: t := by
      rw [← hs, List.mem_insertionSort]
      exact hx
    have hhx : kle (f hd) (f x) := by
      rcases List.mem_cons.mp hxmem with h | h
      · rw [h]; exact kle_refl _
      · have := hsorted.1 x h
        rwa [comp_le_zero_iff] at this
    have : f x = f hd := kle_antisymm (hhead ▸ hle) hhx
    exact hne (this.trans hhead.symm)

/-! ### Lookup by id in a ranked list -/

theorem findRank_isSome_of_mem_item {l : List (Ranked EventOption)}
    {x : EventOption} (hx : x ∈ l.map (fun p => p.item)) :
    (findRank l x.id).isSome := by
  rw [List.mem_map] at hx
  obtain ⟨p, hp, hpx⟩ := hx
  have hfind : (l.find? (fun y => y.item.id == x.id)).isSome := by
    rw [List.find?_isSome]
    exact ⟨p, hp, by simp [hpx]⟩
  rw [findRank]
  rcases Option.isSome_iff_exists.mp hfind with ⟨q, hq⟩
  rw [hq]
  rfl

theorem findRank_mem {l : List (Ranked EventOption)} {id : String} {r : Nat}
    (h : findRank l id = some r) :
    ∃ p ∈ l, p.item.id = id ∧ p.rank = r := by
  rw [findRank, Option.map_eq_some'] at h
  obtain ⟨p, hp, hpr⟩ := h
  refine ⟨p, List.mem_of_find?_eq_some hp, ?_, hpr⟩
  have := List.find?_some hp
  rwa [beq_iff_eq] at this

/-! ### JavaScript map operations -/

theorem mget_nil {κ ν : Type} [DecidableEq κ] (k : κ) :
    mget ([] : JsMap κ ν) k = none := rfl

theorem mget_cons {κ ν : Type} [DecidableEq κ] (kv : κ × ν) (rest : JsMap κ ν)
    (k : κ) :
    mget (kv :: rest) k = if kv.1 = k then some kv.2 else mget rest k := rfl

theorem mset_nil {κ ν : Type} [DecidableEq κ] (k : κ) (v : ν) :
    mset ([] : JsMap κ ν) k v = [(k, v)] := rfl

theorem mset_cons {κ ν : Type} [DecidableEq κ] (kv : κ × ν) (rest : JsMap κ ν)
    (k : κ) (v : ν) :
    mset (kv :: rest) k v
      = if kv.1 = k then (k, v) :: rest else kv :: mset rest k v := rfl

theorem mget_mset_self {κ ν : Type} [DecidableEq κ] (m : JsMap κ ν)
    (k : κ) (v : ν) : mget (mset m k v) k = some v := by
  induction m with
  | nil => simp [mget_nil, mset_nil, mget_cons]
  | cons kv rest ih =>
    rw [mset_cons]
    by_cases h : kv.1 = k
    · rw [if_pos h, mget_cons, if_pos rfl]
    · rw [if_neg h, mget_cons, if_neg h]
      exact ih

theorem mget_mset_ne {κ ν : Type} [DecidableEq κ] (m : JsMap κ ν)
    {k k' : κ} (v : ν) (h : k' ≠ k) :
    mget (mset m k v) k' = mget m k' := by
  induction m with
  | nil =>
    rw [mset_nil, mget_cons, mget_nil, if_neg (fun a => h a.symm)]
  | cons kv rest ih =>
    rw [mset_cons]
    by_cases hkv : kv.1 = k
    · rw [if_pos hkv, mget_cons, mget_cons,
        if_neg (fun a => h a.symm), if_neg (fun a => h (hkv.symm.trans a).symm)]
    · rw [if_neg hkv, mget_cons, mget_cons]
      by_cases hk : kv.1 = k'
      · rw [if_pos hk, if_pos hk]
      · rw [if_neg hk, if_neg hk]
        exact ih

theorem mget_foldl_mset_map {κ ν : Type} [DecidableEq κ] (keys : List κ)
    (val : κ → ν) (m : JsMap κ ν) (k : κ) :
    mget ((keys.map (fun a => (a, val a))).foldl
        (fun acc kv => mset acc kv.1 kv.2) m) k
      = if k ∈ keys then some (val k) else mget m k := by
  induction keys generalizing m with
  | nil => simp
  | cons a rest ih =>
    simp only [List.map_cons, List.foldl_cons, ih]
    by_cases hk : k ∈ rest
    · simp [hk]
    · by_cases hka : k = a
      · subst hka
        simp [hk, mget_mset_self]
      · simp [hk, hka, mget_mset_ne m (val a) hka]

/-! ### tryMap -/

theorem tryMap_eq_some_of_forall {α β : Type} {f : α → Option β} {g : α → β}
    {l : List α} (h : ∀ a ∈ l, f a = some (g a)) :
    tryMap f l = some (l.map g) := by
  induction l with
  | nil => rfl
  | cons a rest ih =>
    simp only [tryMap, h a (List.mem_cons_self a rest),
      ih (fun b hb => h b (List.mem_cons_of_mem a hb)), List.map_cons]

theorem tryMap_forall_isSome {α β : Type} {f : α → Option β} {l : List α}
    {res : List β} (h : tryMap f l = some res) : ∀ a ∈ l, (f a).isSome := by
  induction l generalizing res with
  | nil => simp
  | cons a rest ih =>
    intro b hb
    simp only [tryMap] at h
    rcases hfa : f a with _ | y
    · rw [hfa] at h; simp at h
    · rcases hrest : tryMap f rest with _ | ys
      · rw [hfa, hrest] at h; simp at h
      · rcases List.mem_cons.mp hb with hba | hbr
        · subst hba; simp [hfa]
        · exact ih hrest b hbr

theorem tryMap_isSome_of_forall {α β : Type} {f : α → Option β} {l : List α}
    (h : ∀ a ∈ l, (f a).isSome) : (tryMap f l).isSome := by
  induction l with
  | nil => rfl
  | cons a rest ih =>
    rcases Option.isSome_iff_exists.mp (h a (List.mem_cons_self a rest)) with ⟨y, hy⟩
    rcases Option.isSome_iff_exists.mp
        (ih (fun b hb => h b (List.mem_cons_of_mem a hb))) with ⟨ys, hys⟩
    simp [tryMap, hy, hys]

/-! ### The five ranked lists cover every option -/

theorem rankBySortOrder_items_perm {α : Type} (arr : List α)
    (f : α → Option Int) :
    ((rankBySortOrder arr f).map (fun p => p.item)).Perm arr :=
  rankByComparator_items_perm arr (sortOrderToComparator f)

theorem findRank_isSome_of_perm {l : List (Ranked EventOption)}
    {options : List EventOption}
    (hperm : (l.map (fun p => p.item)).Perm options) {x : EventOption}
    (hx : x ∈ options) : (findRank l x.id).isSome :=
  findRank_isSome_of_mem_item (hperm.mem_iff.mpr hx)

/-! ### Characterisation of the final construction -/

theorem rankLabelsFor_eq_some {options : List EventOption}
    {card : JsMap String (JsMap Int Nat)} {id : String} {rl : RankLabels} :
    rankLabelsFor options card id = some rl ↔
      findRank (leastNumberOfNosMaybesList options card) id
          = some rl.leastNumberOfNosMaybesRank
        ∧ findRank (leastNumberOfNosList options card) id
          = some rl.leastNumberOfNosRank
        ∧ findRank (bestScoreList options card) id = some rl.bestScoreRank
        ∧ findRank (overallList options card) id = some rl.overallRank
        ∧ findRank (strictlySuperiorList options card) id
          = some rl.strictlySuperiorRank := by
  cases rl
  simp only [rankLabelsFor, Option.pure_def, Option.bind_eq_bind,
    Option.bind_eq_some, Option.some.injEq, RankLabels.mk.injEq]
  constructor
  · rintro ⟨a, ha, b, hb, c, hc, d, hd, e, he, h2, h1, h3, h4, h5⟩
    subst h1; subst h2; subst h3; subst h4; subst h5
    exact ⟨ha, hb, hc, hd, he⟩
  · rintro ⟨ha, hb, hc, hd, he⟩
    exact ⟨_, ha, _, hb, _, hc, _, hd, _, he, rfl, rfl, rfl, rfl, rfl⟩

theorem rankLabelsFor_isSome {options : List EventOption}
    {card : JsMap String (JsMap Int Nat)} {x : EventOption}
    (h1 : (findRank (leastNumberOfNosMaybesList options card) x.id).isSome)
    (h2 : (findRank (leastNumberOfNosList options card) x.id).isSome)
    (h3 : (findRank (bestScoreList options card) x.id).isSome)
    (h4 : (findRank (overallList options card) x.id).isSome)
    (h5 : (findRank (strictlySuperiorList options card) x.id).isSome) :
    (rankLabelsFor options card x.id).isSome := by
  rcases Option.isSome_iff_exists.mp h1 with ⟨a, ha⟩
  rcases Option.isSome_iff_exists.mp h2 with ⟨b, hb⟩
  rcases Option.isSome_iff_exists.mp h3 with ⟨c, hc⟩
  rcases Option.isSome_iff_exists.mp h4 with ⟨d, hd⟩
  rcases Option.isSome_iff_exists.mp h5 with ⟨e, he⟩
  rw [Option.isSome_iff_exists]
  exact ⟨⟨b, a, c, d, e⟩, rankLabelsFor_eq_some.mpr ⟨ha, hb, hc, hd, he⟩⟩

/-- Every rank lookup performed by `labelResponses` succeeds: the whole
computation always returns a map. -/
theorem labelResponses_isSome (options : List EventOption)
    (responses : List Response) : (labelResponses options responses).isSome := by
  simp only [labelResponses]
  have hnos := rankBySortOrder_items_perm options
    (leastNumberOfNosKey (cardOf responses))
  have hnm := rankBySortOrder_items_perm options
    (leastNumberOfNosMaybesKey (cardOf responses))
  have hbs := rankBySortOrder_items_perm options (bestScoreKey (cardOf responses))
  have hfound : ranksFound options (cardOf responses) = true := by
    rw [ranksFound, List.all_eq_true]
    intro x hx
    rw [Bool.and_eq_true, Bool.and_eq_true]
    exact ⟨⟨findRank_isSome_of_perm hnos hx, findRank_isSome_of_perm hnm hx⟩,
      findRank_isSome_of_perm hbs hx⟩
  rw [if_pos hfound]
  have hov : ((overallList options (cardOf responses)).map
      (fun p => p.item)).Perm options := by
    rw [overallList]
    exact rankBySortOrder_items_perm options _
  have hss : ((strictlySuperiorList options (cardOf responses)).map
      (fun p => p.item)).Perm options := by
    rw [strictlySuperiorList]
    exact rankByComparator_items_perm options _
  have htm : (tryMap (fun id =>
      (rankLabelsFor options (cardOf responses) id).map (fun rl => (id, rl)))
      (options.map (fun x => x.id))).isSome := by
    apply tryMap_isSome_of_forall
    intro a ha
    rw [List.mem_map] at ha
    obtain ⟨x, hxmem, hxid⟩ := ha
    subst hxid
    have := rankLabelsFor_isSome
      (findRank_isSome_of_perm hnm hxmem)
      (findRank_isSome_of_perm hnos hxmem)
      (findRank_isSome_of_perm hbs hxmem)
      (findRank_isSome_of_perm hov hxmem)
      (findRank_isSome_of_perm hss hxmem)
    rcases Option.isSome_iff_exists.mp this with ⟨rl, hrl⟩
    simp [hrl]
  rcases Option.isSome_iff_exists.mp htm with ⟨items, hitems⟩
  simp [hitems]

/-- The value `labelResponses` associates to an id: exactly the ids of the
input options receive an entry, holding the five ranks `rankLabelsFor`
gathers for that id. -/
theorem labelResponses_mget {options : List EventOption}
    {responses : List Response} {m : JsMap String RankLabels}
    (hm : labelResponses options responses = some m) (id : String)
    (rl : RankLabels) :
    mget m id = some rl ↔
      (id ∈ options.map (fun x => x.id)
        ∧ rankLabelsFor options (cardOf responses) id = some rl) := by
  simp only [labelResponses] at hm
  by_cases hfound : ranksFound options (cardOf responses) = true
  · rw [if_pos hfound] at hm
    rcases htm : tryMap (fun id =>
        (rankLabelsFor options (cardOf responses) id).map (fun rl => (id, rl)))
        (options.map (fun x => x.id)) with _ | items
    · rw [htm] at hm; simp at hm
    · rw [htm] at hm
      simp only [Option.map_some', Option.some.injEq] at hm
      have hall := tryMap_forall_isSome htm
      have hval : ∀ a ∈ options.map (fun x => x.id),
          (fun id => (rankLabelsFor options (cardOf responses) id).map
            (fun rl => (id, rl))) a
          = some (a, (rankLabelsFor options (cardOf responses) a).getD
              ⟨0, 0, 0, 0, 0⟩) := by
        intro a ha
        have := hall a ha
        rcases Option.isSome_iff_exists.mp (by
          simpa [Option.isSome_map] using this :
            (rankLabelsFor options (cardOf responses) a).isSome) with ⟨v, hv⟩
        simp [hv]
      have := tryMap_eq_some_of_forall hval
      rw [htm] at this
      have hitems : items = (options.map (fun x => x.id)).map
          (fun a => (a, (rankLabelsFor options (cardOf responses) a).getD
            ⟨0, 0, 0, 0, 0⟩)) := Option.some.inj this
      subst hitems
      rw [← hm, mget_foldl_mset_map]
      constructor
      · intro h
        by_cases hid : id ∈ options.map (fun x => x.id)
        · rw [if_pos hid] at h
          have hs : (rankLabelsFor options (cardOf responses) id).isSome := by
            have := hall id hid
            simpa [Option.isSome_map] using this
          rcases Option.isSome_iff_exists.mp hs with ⟨v, hv⟩
          rw [hv] at h
          simp only [Option.getD_some, Option.some.injEq] at h
          exact ⟨hid, by rw [hv, h]⟩
        · rw [if_neg hid, mget_nil] at h
          exact absurd h (by simp)
      · rintro ⟨hid, hrl⟩
        rw [if_pos hid, hrl]
        rfl
  · rw [if_neg hfound] at hm
    exact absurd hm (by simp)

/-! ### Degenerate comparators -/

theorem orderedInsert_of_head {α : Type} {r : α → α → Prop} [DecidableRel r]
    (a : α) {l : List α} (h : ∀ b ∈ l, l.head? = some b → r a b) :
    List.orderedInsert r a l = a :: l := by
  cases l with
  | nil => rfl
  | cons b t =>
    simp only [List.orderedInsert]
    rw [if_pos (h b (List.mem_cons_self b t) rfl)]

theorem insertionSort_eq_self {α : Type} {r : α → α → Prop} [DecidableRel r]
    {l : List α} (h : ∀ a b, a ∈ l → b ∈ l → r a b) :
    List.insertionSort r l = l := by
  induction l with
  | nil => rfl
  | cons a t ih =>
    simp only [List.insertionSort]
    rw [ih (fun x y hx hy =>
      h x y (List.mem_cons_of_mem a hx) (List.mem_cons_of_mem a hy))]
    apply orderedInsert_of_head
    intro b hb _
    exact h a b (List.mem_cons_self a t) (List.mem_cons_of_mem a hb)

theorem rankFrom_all_zero {α : Type} {fn : α → α → Int} {S : List α}
    (h : ∀ a b, a ∈ S → b ∈ S → fn a b = 0) :
    ∀ (l : List α) (prev : α), (∀ y ∈ l, y ∈ S) → prev ∈ S →
      rankFrom fn prev 0 l = l.map (fun x => ⟨x, 0⟩) := by
  intro l
  induction l with
  | nil => intro prev _ _; rfl
  | cons x xs ih =>
    intro prev hl hprev
    have hx : x ∈ S := hl x (List.mem_cons_self x xs)
    simp only [rankFrom, h x prev hx hprev, if_pos, List.map_cons]
    exact congrArg _ (ih x (fun y hy => hl y (List.mem_cons_of_mem x hy)) hx)

theorem rankByComparator_all_zero {α : Type} {arr : List α} {fn : α → α → Int}
    (h : ∀ a b, a ∈ arr → b ∈ arr → fn a b = 0) :
    rankByComparator arr fn = arr.map (fun x => ⟨x, 0⟩) := by
  rw [rankByComparator]
  rw [insertionSort_eq_self (fun a b ha hb => by rw [h a b ha hb])]
  cases arr with
  | nil => rfl
  | cons x xs =>
    simp only [assignRanks, List.map_cons]
    refine congrArg _ ?_
    exact rankFrom_all_zero h xs x
      (fun y hy => List.mem_cons_of_mem x hy) (List.mem_cons_self x xs)

theorem findRank_map_zero {options : List EventOption} {x : EventOption}
    (hx : x ∈ options) :
    findRank (options.map (fun y => (⟨y, 0⟩ : Ranked EventOption))) x.id
      = some 0 := by
  have hmem : x ∈ (options.map
      (fun y => (⟨y, 0⟩ : Ranked EventOption))).map (fun p => p.item) := by
    simp only [List.map_map]
    simpa using hx
  have hs := findRank_isSome_of_mem_item hmem
  rcases Option.isSome_iff_exists.mp hs with ⟨r, hr⟩
  rcases findRank_mem hr with ⟨p, hp, _, hpr⟩
  rw [List.mem_map] at hp
  obtain ⟨y, _, hy⟩ := hp
  rw [hr, ← hpr, ← hy]

/-- If an entry of `rankByComparator` has a positive rank, some pair of
array elements compares unequal. -/
theorem exists_comp_ne_zero_of_rank_pos {α : Type} {arr : List α}
    {fn : α → α → Int} {p : Ranked α} (hp : p ∈ rankByComparator arr fn)
    (hpos : p.rank ≠ 0) : ∃ a b, a ∈ arr ∧ b ∈ arr ∧ fn a b ≠ 0 := by
  by_contra hno
  push_neg at hno
  rw [rankByComparator_all_zero hno] at hp
  rw [List.mem_map] at hp
  obtain ⟨y, _, hy⟩ := hp
  exact hpos (by rw [← hy])

theorem rank_lt_length_of_mem {α : Type} {arr : List α} {fn : α → α → Int}
    {p : Ranked α} (hp : p ∈ rankByComparator arr fn) : p.rank < arr.length := by
  rw [rankByComparator] at hp
  have := assignRanks_rank_lt hp
  rwa [(List.perm_insertionSort (fun a b => fn a b ≤ 0) arr).length_eq] at this

/-! ### The label cascade -/

theorem label_bestOverall_iff (rl : RankLabels) (n : Nat) :
    determineMostSignificantLabel rl n = Label.BestOverall ↔
      rl.overallRank = 0 := by
  unfold determineMostSignificantLabel
  split_ifs <;> simp_all

/-! ### Absent tally entries -/

theorem card_foldl_none {k : String} :
    ∀ (sels : List SelectedOption) (acc : JsMap String (JsMap Int Nat)),
      (∀ s ∈ sels, s.optionId ≠ k) → mget acc k = none →
      mget (sels.foldl cardStep acc) k = none := by
  intro sels
  induction sels with
  | nil => intro acc _ h; exact h
  | cons s t ih =>
    intro acc hs hacc
    rw [List.foldl_cons]
    apply ih _ (fun u hu => hs u (List.mem_cons_of_mem s hu))
    simp only [cardStep]
    rw [mget_mset_ne _ _ (fun a => hs s (List.mem_cons_self s t) a.symm)]
    exact hacc

theorem card_mget_none {sels : List SelectedOption} {k : String}
    (h : ∀ s ∈ sels, s.optionId ≠ k) :
    mget (responsePreferenceCardianlity sels) k = none :=
  card_foldl_none sels [] h rfl

/-! ### Claim theorems -/

/-- C2: for every non-empty input and every comparator, `rankByComparator`
returns one pair per input item (a permutation of the input), the first
sorted item has rank 0, each later item keeps the previous rank exactly when
it compares equal to its predecessor and gets the previous rank + 1
otherwise, ranks are non-decreasing, every rank is at most the item count
minus 1, and the key-function form is the comparator form applied to
`sortOrderToComparator`. -/
theorem claim2_rank_assignment {α : Type} (arr : List α) (fn : α → α → Int)
    (hne : arr ≠ []) :
    ((rankByComparator arr fn).map (fun p => p.item)).Perm arr
      ∧ (∃ p, (rankByComparator arr fn).head? = some p ∧ p.rank = 0)
      ∧ List.Chain' (rankStep fn) (rankByComparator arr fn)
      ∧ List.Chain' (fun p q => p.rank ≤ q.rank) (rankByComparator arr fn)
      ∧ (∀ p ∈ rankByComparator arr fn, p.rank ≤ arr.length - 1)
      ∧ (∀ f : α → Option Int,
          rankBySortOrder arr f = rankByComparator arr (sortOrderToComparator f)) := by
  refine ⟨rankByComparator_items_perm arr fn, ?_, assignRanks_chain fn _,
    (assignRanks_chain fn _).imp (fun p q h => rankStep_le h), ?_, fun f => rfl⟩
  · have hlen : (List.insertionSort (fun a b => fn a b ≤ 0) arr).length
        = arr.length := (List.perm_insertionSort _ arr).length_eq
    rcases hs : List.insertionSort (fun a b => fn a b ≤ 0) arr with _ | ⟨x, xs⟩
    · rw [hs] at hlen
      cases arr with
      | nil => exact absurd rfl hne
      | cons y ys => simp at hlen
    · refine ⟨⟨x, 0⟩, ?_, rfl⟩
      rw [rankByComparator, hs]
      rfl
  · intro p hp
    have := rank_lt_length_of_mem hp
    omega

theorem claim2_witness :
    ([3, 1, 1] : List Int) ≠ []
      ∧ (((rankByComparator [3, 1, 1] (fun a b => a - b)).map
            (fun p => p.item)).Perm [3, 1, 1]
        ∧ (∃ p, (rankByComparator [3, 1, 1] (fun a b => a - b)).head? = some p
            ∧ p.rank = 0)
        ∧ List.Chain' (rankStep (fun a b => a - b))
            (rankByComparator [3, 1, 1] (fun a b => a - b))
        ∧ List.Chain' (fun p q => p.rank ≤ q.rank)
            (rankByComparator [3, 1, 1] (fun a b => a - b))
        ∧ (∀ p ∈ rankByComparator [3, 1, 1] (fun a b => a - b),
            p.rank ≤ ([3, 1, 1] : List Int).length - 1)
        ∧ (∀ f : Int → Option Int,
            rankBySortOrder [3, 1, 1] f
              = rankByComparator [3, 1, 1] (sortOrderToComparator f))) :=
  ⟨by decide, claim2_rank_assignment [3, 1, 1] (fun a b => a - b) (by decide)⟩

/-- C3: in the key-based order, an absent key sorts after every present key,
two absent keys tie, present keys compare by numeric value; and an option
no selection refers to has no tally entry at all, so each of its three
criterion keys is absent rather than zero. -/
theorem claim3_absent_keys {α : Type} (f : α → Option Int) (a b : α)
    (sels : List SelectedOption) (x : EventOption) :
    (f a = none → f b = none → sortOrderToComparator f a b = 0)
      ∧ (∀ v, f a = none → f b = some v → 0 < sortOrderToComparator f a b)
      ∧ (∀ v, f a = some v → f b = none → sortOrderToComparator f a b < 0)
      ∧ (∀ v w, f a = some v → f b = some w →
          ((sortOrderToComparator f a b < 0 ↔ v < w)
            ∧ (sortOrderToComparator f a b = 0 ↔ v = w)
            ∧ (0 < sortOrderToComparator f a b ↔ w < v)))
      ∧ ((∀ s ∈ sels, s.optionId ≠ x.id) →
          (mget (responsePreferenceCardianlity sels) x.id = none
            ∧ leastNumberOfNosKey (responsePreferenceCardianlity sels) x = none
            ∧ leastNumberOfNosMaybesKey (responsePreferenceCardianlity sels) x
                = none
            ∧ bestScoreKey (responsePreferenceCardianlity sels) x = none)) := by
  refine ⟨?_, ?_, ?_, ?_, ?_⟩
  · intro ha hb
    simp [sortOrderToComparator, ha, hb]
  · intro v ha hb
    simp [sortOrderToComparator, ha, hb]
  · intro v ha hb
    simp [sortOrderToComparator, ha, hb]
  · intro v w ha hb
    simp only [sortOrderToComparator, ha, hb]
    omega
  · intro h
    have hnone := card_mget_none h
    exact ⟨hnone, by simp [leastNumberOfNosKey, hnone],
      by simp [leastNumberOfNosMaybesKey, hnone], by simp [bestScoreKey, hnone]⟩

theorem claim3_witness :
    0 < sortOrderToComparator (fun n : Nat => if n = 0 then none else some n) 0 1
      ∧ sortOrderToComparator
          (fun n : Nat => if n = 0 then none else some n) 1 2 < 0
      ∧ mget (responsePreferenceCardianlity [⟨1, false, "B"⟩])
          (EventOption.mk "A" "d").id = none
      ∧ leastNumberOfNosKey (responsePreferenceCardianlity [⟨1, false, "B"⟩])
          (EventOption.mk "A" "d") = none := by
  have h1 := (claim3_absent_keys (fun n : Nat => if n = 0 then none else some n)
    0 1 [⟨1, false, "B"⟩] (EventOption.mk "A" "d")).2.1 1 (by decide) (by decide)
  have h2 := (claim3_absent_keys (fun n : Nat => if n = 0 then none else some n)
    1 2 [⟨1, false, "B"⟩] (EventOption.mk "A" "d")).2.2.2.1 1 2 (by decide) (by decide)
  have h3 := (claim3_absent_keys (fun n : Nat => if n = 0 then none else some n)
    1 2 [⟨1, false, "B"⟩] (EventOption.mk "A" "d")).2.2.2.2 (by decide)
  exact ⟨h1, h2.1.mpr (by decide), h3.1, h3.2.1⟩

/-- C4: the label cascade returns exactly one label, decided by the first
matching rule of the fixed priority order over the rank tuple and the
option count. -/
theorem claim4_label_priority (rl : RankLabels) (n : Nat) :
    (determineMostSignificantLabel rl n = Label.BestOverall ↔
        rl.overallRank = 0)
      ∧ (determineMostSignificantLabel rl n = Label.SecondBest ↔
          (rl.overallRank ≠ 0 ∧ rl.overallRank = 1 ∧ n > 2))
      ∧ (determineMostSignificantLabel rl n = Label.MostPreferred ↔
          (rl.overallRank ≠ 0 ∧ ¬(rl.overallRank = 1 ∧ n > 2)
            ∧ rl.bestScoreRank = 0))
      ∧ (determineMostSignificantLabel rl n = Label.FewestNos ↔
          (rl.overallRank ≠ 0 ∧ ¬(rl.overallRank = 1 ∧ n > 2)
            ∧ rl.bestScoreRank ≠ 0 ∧ rl.leastNumberOfNosRank = 0))
      ∧ (determineMostSignificantLabel rl n = Label.FewestNosMaybes ↔
          (rl.overallRank ≠ 0 ∧ ¬(rl.overallRank = 1 ∧ n > 2)
            ∧ rl.bestScoreRank ≠ 0 ∧ rl.leastNumberOfNosRank ≠ 0
            ∧ rl.leastNumberOfNosMaybesRank = 0))
      ∧ (determineMostSignificantLabel rl n = Label.Suboptimal ↔
          (rl.overallRank ≠ 0 ∧ ¬(rl.overallRank = 1 ∧ n > 2)
            ∧ rl.bestScoreRank ≠ 0 ∧ rl.leastNumberOfNosRank ≠ 0
            ∧ rl.leastNumberOfNosMaybesRank ≠ 0
            ∧ rl.strictlySuperiorRank > 0))
      ∧ (determineMostSignificantLabel rl n = Label.Nothing ↔
          (rl.overallRank ≠ 0 ∧ ¬(rl.overallRank = 1 ∧ n > 2)
            ∧ rl.bestScoreRank ≠ 0 ∧ rl.leastNumberOfNosRank ≠ 0
            ∧ rl.leastNumberOfNosMaybesRank ≠ 0
            ∧ ¬ rl.strictlySuperiorRank > 0)) := by
  unfold determineMostSignificantLabel
  split_ifs with h1 h2 h3 h4 h5 h6 <;> simp_all

theorem claim4_witness :
    determineMostSignificantLabel ⟨0, 0, 0, 1, 0⟩ 3 = Label.SecondBest :=
  ((claim4_label_priority ⟨0, 0, 0, 1, 0⟩ 3).2.1).mpr
    ⟨by decide, by decide, by decide⟩

theorem rankLabelsFor_isSome_of_mem (options : List EventOption)
    (card : JsMap String (JsMap Int Nat)) {x : EventOption}
    (hx : x ∈ options) : (rankLabelsFor options card x.id).isSome := by
  have hov : ((overallList options card).map (fun p => p.item)).Perm options := by
    rw [overallList]
    exact rankBySortOrder_items_perm options _
  have hss : ((strictlySuperiorList options card).map
      (fun p => p.item)).Perm options := by
    rw [strictlySuperiorList]
    exact rankByComparator_items_perm options _
  exact rankLabelsFor_isSome
    (findRank_isSome_of_perm (rankBySortOrder_items_perm options
      (leastNumberOfNosMaybesKey card)) hx)
    (findRank_isSome_of_perm (rankBySortOrder_items_perm options
      (leastNumberOfNosKey card)) hx)
    (findRank_isSome_of_perm (rankBySortOrder_items_perm options
      (bestScoreKey card)) hx)
    (findRank_isSome_of_perm hov hx)
    (findRank_isSome_of_perm hss hx)

/-- C8: on every input, the ranking computation completes — every rank
lookup by option id succeeds, the error branches are unreachable, and the
returned map has an entry for every option of the input list. -/
theorem claim8_rank_lookups_succeed (options : List EventOption)
    (responses : List Response) :
    ∃ m, labelResponses options responses = some m
      ∧ ∀ x ∈ options, (mget m x.id).isSome := by
  rcases Option.isSome_iff_exists.mp (labelResponses_isSome options responses)
    with ⟨m, hm⟩
  refine ⟨m, hm, ?_⟩
  intro x hx
  rcases Option.isSome_iff_exists.mp
    (rankLabelsFor_isSome_of_mem options (cardOf responses) hx) with ⟨rl, hrl⟩
  rw [(labelResponses_mget hm x.id rl).mpr
    ⟨List.mem_map_of_mem (fun y => y.id) hx, hrl⟩]
  rfl

theorem claim8_witness :
    ∃ m, labelResponses [⟨"A", "d"⟩] [] = some m
      ∧ ∀ x ∈ [(⟨"A", "d"⟩ : EventOption)], (mget m x.id).isSome :=
  claim8_rank_lookups_succeed [⟨"A", "d"⟩] []

/-! ### The empty-responses scenario -/

theorem leastNumberOfNosList_nil_card (options : List EventOption) :
    leastNumberOfNosList options (cardOf [])
      = options.map (fun x => ⟨x, 0⟩) := by
  rw [leastNumberOfNosList, rankBySortOrder]
  apply rankByComparator_all_zero
  intro a b _ _
  rw [comp_eq_zero_iff]
  rfl

theorem leastNumberOfNosMaybesList_nil_card (options : List EventOption) :
    leastNumberOfNosMaybesList options (cardOf [])
      = options.map (fun x => ⟨x, 0⟩) := by
  rw [leastNumberOfNosMaybesList, rankBySortOrder]
  apply rankByComparator_all_zero
  intro a b _ _
  rw [comp_eq_zero_iff]
  rfl

theorem bestScoreList_nil_card (options : List EventOption) :
    bestScoreList options (cardOf []) = options.map (fun x => ⟨x, 0⟩) := by
  rw [bestScoreList, rankBySortOrder]
  apply rankByComparator_all_zero
  intro a b _ _
  rw [comp_eq_zero_iff]
  rfl

theorem overallList_nil_card (options : List EventOption) :
    overallList options (cardOf []) = options.map (fun x => ⟨x, 0⟩) := by
  rw [overallList, rankBySortOrder, leastNumberOfNosList_nil_card,
    leastNumberOfNosMaybesList_nil_card, bestScoreList_nil_card]
  apply rankByComparator_all_zero
  intro a b ha hb
  rw [comp_eq_zero_iff, overallKey, overallKey,
    findRank_map_zero ha, findRank_map_zero hb]

theorem strictlySuperiorList_nil_card (options : List EventOption) :
    strictlySuperiorList options (cardOf [])
      = options.map (fun x => ⟨x, 0⟩) := by
  rw [strictlySuperiorList, leastNumberOfNosList_nil_card,
    leastNumberOfNosMaybesList_nil_card, bestScoreList_nil_card]
  apply rankByComparator_all_zero
  intro a b ha hb
  simp [strictlySuperiorComp, findRank_map_zero ha, findRank_map_zero hb]

theorem labelResponses_nil_responses (options : List EventOption) :
    ∃ m, labelResponses options [] = some m
      ∧ ∀ x ∈ options, mget m x.id = some ⟨0, 0, 0, 0, 0⟩ := by
  rcases Option.isSome_iff_exists.mp (labelResponses_isSome options [])
    with ⟨m, hm⟩
  refine ⟨m, hm, ?_⟩
  intro x hx
  apply (labelResponses_mget hm x.id ⟨0, 0, 0, 0, 0⟩).mpr
  refine ⟨List.mem_map_of_mem (fun y => y.id) hx, ?_⟩
  apply rankLabelsFor_eq_some.mpr
  rw [leastNumberOfNosList_nil_card, leastNumberOfNosMaybesList_nil_card,
    bestScoreList_nil_card, overallList_nil_card, strictlySuperiorList_nil_card]
  exact ⟨findRank_map_zero hx, findRank_map_zero hx, findRank_map_zero hx,
    findRank_map_zero hx, findRank_map_zero hx⟩

/-! ### Congruence of the pipeline in the tally -/

theorem orderedInsert_congr {α : Type} {r s : α → α → Prop}
    [DecidableRel r] [DecidableRel s] {a : α} {l : List α}
    (h : ∀ x ∈ l, r a x ↔ s a x) :
    List.orderedInsert r a l = List.orderedInsert s a l := by
  induction l with
  | nil => rfl
  | cons b t ih =>
    simp only [List.orderedInsert]
    by_cases hr : r a b
    · rw [if_pos hr, if_pos ((h b (List.mem_cons_self b t)).mp hr)]
    · rw [if_neg hr,
        if_neg (fun hs => hr ((h b (List.mem_cons_self b t)).mpr hs)),
        ih (fun x hx => h x (List.mem_cons_of_mem b hx))]

theorem insertionSort_congr {α : Type} {r s : α → α → Prop}
    [DecidableRel r] [DecidableRel s] {l : List α}
    (h : ∀ a b, a ∈ l → b ∈ l → (r a b ↔ s a b)) :
    List.insertionSort r l = List.insertionSort s l := by
  induction l with
  | nil => rfl
  | cons a t ih =>
    simp only [List.insertionSort]
    rw [ih (fun x y hx hy =>
      h x y (List.mem_cons_of_mem a hx) (List.mem_cons_of_mem a hy))]
    apply orderedInsert_congr
    intro x hx
    rw [List.mem_insertionSort] at hx
    exact h a x (List.mem_cons_self a t) (List.mem_cons_of_mem a hx)

theorem rankFrom_congr {α : Type} {fn gn : α → α → Int} {S : List α}
    (h : ∀ a b, a ∈ S → b ∈ S → fn a b = gn a b) :
    ∀ (l : List α) (prev : α) (pr : Nat), (∀ y ∈ l, y ∈ S) → prev ∈ S →
      rankFrom fn prev pr l = rankFrom gn prev pr l := by
  intro l
  induction l with
  | nil => intro prev pr _ _; rfl
  | cons x xs ih =>
    intro prev pr hl hprev
    have hx : x ∈ S := hl x (List.mem_cons_self x xs)
    simp only [rankFrom]
    rw [h x prev hx hprev]
    exact congrArg _
      (ih x _ (fun y hy => hl y (List.mem_cons_of_mem x hy)) hx)

theorem assignRanks_congr {α : Type} {fn gn : α → α → Int} {l : List α}
    (h : ∀ a b, a ∈ l → b ∈ l → fn a b = gn a b) :
    assignRanks fn l = assignRanks gn l := by
  cases l with
  | nil => rfl
  | cons x xs =>
    simp only [assignRanks]
    exact congrArg _ (rankFrom_congr h xs x 0
      (fun y hy => List.mem_cons_of_mem x hy) (List.mem_cons_self x xs))

theorem rankByComparator_congr {α : Type} {arr : List α} {fn gn : α → α → Int}
    (h : ∀ a b, a ∈ arr → b ∈ arr → fn a b = gn a b) :
    rankByComparator arr fn = rankByComparator arr gn := by
  rw [rankByComparator, rankByComparator]
  have hs : List.insertionSort (fun a b => fn a b ≤ 0) arr
      = List.insertionSort (fun a b => gn a b ≤ 0) arr :=
    insertionSort_congr (fun a b ha hb => by rw [h a b ha hb])
  rw [hs]
  apply assignRanks_congr
  intro a b ha hb
  rw [List.mem_insertionSort] at ha hb
  exact h a b ha hb

theorem rankBySortOrder_congr {α : Type} {arr : List α}
    {f g : α → Option Int} (h : ∀ x ∈ arr, f x = g x) :
    rankBySortOrder arr f = rankBySortOrder arr g :=
  rankByComparator_congr (fun a b ha hb => by
    unfold sortOrderToComparator
    rw [h a ha, h b hb])

/-- Two response lists whose tallies agree on every listed option id yield
the same `labelResponses` output. -/
theorem labelResponses_congr {options : List EventOption}
    {r1 r2 : List Response}
    (h : ∀ x ∈ options, mget (cardOf r1) x.id = mget (cardOf r2) x.id) :
    labelResponses options r1 = labelResponses options r2 := by
  have hnos : leastNumberOfNosList options (cardOf r1)
      = leastNumberOfNosList options (cardOf r2) := by
    rw [leastNumberOfNosList, leastNumberOfNosList]
    apply rankBySortOrder_congr
    intro x hx
    rw [leastNumberOfNosKey, leastNumberOfNosKey, h x hx]
  have hnm : leastNumberOfNosMaybesList options (cardOf r1)
      = leastNumberOfNosMaybesList options (cardOf r2) := by
    rw [leastNumberOfNosMaybesList, leastNumberOfNosMaybesList]
    apply rankBySortOrder_congr
    intro x hx
    rw [leastNumberOfNosMaybesKey, leastNumberOfNosMaybesKey, h x hx]
  have hbs : bestScoreList options (cardOf r1)
      = bestScoreList options (cardOf r2) := by
    rw [bestScoreList, bestScoreList]
    apply rankBySortOrder_congr
    intro x hx
    rw [bestScoreKey, bestScoreKey, h x hx]
  have hov : overallList options (cardOf r1)
      = overallList options (cardOf r2) := by
    rw [overallList, overallList, hnos, hnm, hbs]
  have hss : strictlySuperiorList options (cardOf r1)
      = strictlySuperiorList options (cardOf r2) := by
    rw [strictlySuperiorList, strictlySuperiorList, hnos, hnm, hbs]
  have hrf : ranksFound options (cardOf r1) = ranksFound options (cardOf r2) := by
    rw [ranksFound, ranksFound, hnos, hnm, hbs]
  have hrlf : rankLabelsFor options (cardOf r1)
      = rankLabelsFor options (cardOf r2) := by
    funext id
    rw [rankLabelsFor, rankLabelsFor, hnos, hnm, hbs, hov, hss]
  simp only [labelResponses]
  rw [hrf, hrlf]

/-- C7: for a non-empty option list whose responses select no listed
option (in particular, an empty response list), every tally entry is
absent, every option ties at rank 0 in all five criteria, and every option
is labeled Best Overall. -/
theorem claim7_no_selections (options : List EventOption)
    (responses : List Response) (hne : options ≠ [])
    (hnosel : ∀ s ∈ allChosen responses,
      s.optionId ∉ options.map (fun x => x.id)) :
    ∃ m, labelResponses options responses = some m
      ∧ ∀ x ∈ options,
          mget (cardOf responses) x.id = none
          ∧ mget m x.id = some ⟨0, 0, 0, 0, 0⟩
          ∧ determineMostSignificantLabel ⟨0, 0, 0, 0, 0⟩ options.length
              = Label.BestOverall := by
  have hAbsent : ∀ x ∈ options, mget (cardOf responses) x.id = none := by
    intro x hx
    apply card_mget_none
    intro s hs e
    exact hnosel s hs (e ▸ List.mem_map_of_mem (fun y => y.id) hx)
  have hcong : labelResponses options responses = labelResponses options [] :=
    labelResponses_congr (fun x hx => by rw [hAbsent x hx]; rfl)
  obtain ⟨m, hm, hall⟩ := labelResponses_nil_responses options
  refine ⟨m, hcong.trans hm, ?_⟩
  intro x hx
  exact ⟨hAbsent x hx, hall x hx, rfl⟩

theorem claim7_witness :
    ([(⟨"A", "d1"⟩ : EventOption), ⟨"B", "d2"⟩] ≠ [])
      ∧ (∃ m, labelResponses [⟨"A", "d1"⟩, ⟨"B", "d2"⟩] [] = some m
          ∧ ∀ x ∈ [(⟨"A", "d1"⟩ : EventOption), ⟨"B", "d2"⟩],
              mget (cardOf []) x.id = none
              ∧ mget m x.id = some ⟨0, 0, 0, 0, 0⟩
              ∧ determineMostSignificantLabel ⟨0, 0, 0, 0, 0⟩
                  ([(⟨"A", "d1"⟩ : EventOption), ⟨"B", "d2"⟩]).length
                  = Label.BestOverall) :=
  ⟨by decide, claim7_no_selections [⟨"A", "d1"⟩, ⟨"B", "d2"⟩] [] (by decide)
    (by simp [allChosen])⟩

/-! ### Dominated options never rank first overall -/

/-- C5: an option B whose fewest-nos, fewest-nos-and-maybes and best-score
ranks are all at least those of another option A, at least one strictly
greater, never has overall rank 0 and is never labeled Best Overall. -/
theorem claim5_dominated_never_best {options : List EventOption}
    {responses : List Response} {m : JsMap String RankLabels}
    {A B : String} {rla rlb : RankLabels}
    (hm : labelResponses options responses = some m)
    (hA : mget m A = some rla) (hB : mget m B = some rlb)
    (h1 : rla.leastNumberOfNosRank ≤ rlb.leastNumberOfNosRank)
    (h2 : rla.leastNumberOfNosMaybesRank ≤ rlb.leastNumberOfNosMaybesRank)
    (h3 : rla.bestScoreRank ≤ rlb.bestScoreRank)
    (hstrict : rla.leastNumberOfNosRank < rlb.leastNumberOfNosRank
      ∨ rla.leastNumberOfNosMaybesRank < rlb.leastNumberOfNosMaybesRank
      ∨ rla.bestScoreRank < rlb.bestScoreRank) :
    rlb.overallRank ≠ 0
      ∧ determineMostSignificantLabel rlb options.length
          ≠ Label.BestOverall := by
  obtain ⟨hAid, hrlfA⟩ := (labelResponses_mget hm A rla).mp hA
  obtain ⟨hBid, hrlfB⟩ := (labelResponses_mget hm B rlb).mp hB
  obtain ⟨hnmA, hnosA, hbsA, hovA, hssA⟩ := rankLabelsFor_eq_some.mp hrlfA
  obtain ⟨hnmB, hnosB, hbsB, hovB, hssB⟩ := rankLabelsFor_eq_some.mp hrlfB
  rw [List.mem_map] at hAid
  obtain ⟨xa, hxa, hxaid⟩ := hAid
  obtain ⟨p, hpmem, hpid, hprank⟩ := findRank_mem hovB
  have aggle : aggregateRankScore options.length rla.bestScoreRank
        rla.leastNumberOfNosMaybesRank rla.leastNumberOfNosRank
      < aggregateRankScore options.length rlb.bestScoreRank
        rlb.leastNumberOfNosMaybesRank rlb.leastNumberOfNosRank := by
    unfold aggregateRankScore
    omega
  have hkeyA : overallKey options.length (bestScoreList options (cardOf responses))
      (leastNumberOfNosMaybesList options (cardOf responses))
      (leastNumberOfNosList options (cardOf responses)) xa
      = some ((aggregateRankScore options.length rla.bestScoreRank
          rla.leastNumberOfNosMaybesRank rla.leastNumberOfNosRank : Nat) : Int) := by
    rw [overallKey, hxaid, hbsA, hnmA, hnosA]
    simp [Option.getD_some]
  have hkeyB : overallKey options.length (bestScoreList options (cardOf responses))
      (leastNumberOfNosMaybesList options (cardOf responses))
      (leastNumberOfNosList options (cardOf responses)) p.item
      = some ((aggregateRankScore options.length rlb.bestScoreRank
          rlb.leastNumberOfNosMaybesRank rlb.leastNumberOfNosRank : Nat) : Int) := by
    rw [overallKey, hpid, hbsB, hnmB, hnosB]
    simp [Option.getD_some]
  have hpmem' : p ∈ rankBySortOrder options
      (overallKey options.length (bestScoreList options (cardOf responses))
        (leastNumberOfNosMaybesList options (cardOf responses))
        (leastNumberOfNosList options (cardOf responses))) := by
    rw [overallList] at hpmem
    exact hpmem
  have hle : kle
      (overallKey options.length (bestScoreList options (cardOf responses))
        (leastNumberOfNosMaybesList options (cardOf responses))
        (leastNumberOfNosList options (cardOf responses)) xa)
      (overallKey options.length (bestScoreList options (cardOf responses))
        (leastNumberOfNosMaybesList options (cardOf responses))
        (leastNumberOfNosList options (cardOf responses)) p.item) := by
    rw [hkeyA, hkeyB]
    simp only [kle]
    exact_mod_cast Nat.le_of_lt aggle
  have hne : overallKey options.length (bestScoreList options (cardOf responses))
        (leastNumberOfNosMaybesList options (cardOf responses))
        (leastNumberOfNosList options (cardOf responses)) xa
      ≠ overallKey options.length (bestScoreList options (cardOf responses))
        (leastNumberOfNosMaybesList options (cardOf responses))
        (leastNumberOfNosList options (cardOf responses)) p.item := by
    rw [hkeyA, hkeyB]
    simp only [ne_eq, Option.some.injEq, Nat.cast_inj]
    omega
  have hov0 : rlb.overallRank ≠ 0 := by
    rw [← hprank]
    exact @rank_ne_zero_of_klt EventOption options
      (overallKey options.length (bestScoreList options (cardOf responses))
        (leastNumberOfNosMaybesList options (cardOf responses))
        (leastNumberOfNosList options (cardOf responses)))
      xa p hxa hpmem' hle hne
  exact ⟨hov0,
    fun hlab => hov0 ((label_bestOverall_iff rlb options.length).mp hlab)⟩

/-- A three-option input: A is strictly better than B in every criterion
rank, C is comparable with neither. -/
def exOptions : List EventOption := [⟨"A", "dA"⟩, ⟨"B", "dB"⟩, ⟨"C", "dC"⟩]

/-- Responses giving tallies A = {1: 1}, B = {−1: 1, 1: 1},
C = {−1: 2, 4: 2}. -/
def exResponses : List Response :=
  [⟨⟨none⟩, [⟨1, false, "A"⟩, ⟨-1, false, "B"⟩, ⟨-1, false, "C"⟩]⟩,
   ⟨⟨none⟩, [⟨1, false, "B"⟩, ⟨-1, false, "C"⟩]⟩,
   ⟨⟨none⟩, [⟨4, false, "C"⟩]⟩,
   ⟨⟨none⟩, [⟨4, false, "C"⟩]⟩]

/-- The rank map `labelResponses` computes on `exOptions`/`exResponses`. -/
def exMap : JsMap String RankLabels :=
  [("A", ⟨0, 0, 1, 0, 0⟩), ("B", ⟨1, 1, 2, 1, 1⟩), ("C", ⟨2, 2, 0, 1, 1⟩)]

theorem claim5_witness :
    labelResponses exOptions exResponses = some exMap
      ∧ ((⟨1, 1, 2, 1, 1⟩ : RankLabels).overallRank ≠ 0
        ∧ determineMostSignificantLabel ⟨1, 1, 2, 1, 1⟩ exOptions.length
            ≠ Label.BestOverall) :=
  ⟨by decide,
    @claim5_dominated_never_best exOptions exResponses exMap "A" "B"
      ⟨0, 0, 1, 0, 0⟩ ⟨1, 1, 2, 1, 1⟩ (by decide) (by decide) (by decide)
      (by decide) (by decide) (by decide) (by decide)⟩

/-! ### Dominance rank positive -/

/-- Dominance between two rank tuples: componentwise ≤ on the fewest-nos,
fewest-nos-and-maybes and best-score ranks, with at least one strict. -/
def dominates (a b : RankLabels) : Prop :=
  a.leastNumberOfNosRank ≤ b.leastNumberOfNosRank
    ∧ a.leastNumberOfNosMaybesRank ≤ b.leastNumberOfNosMaybesRank
    ∧ a.bestScoreRank ≤ b.bestScoreRank
    ∧ (a.leastNumberOfNosRank < b.leastNumberOfNosRank
      ∨ a.leastNumberOfNosMaybesRank < b.leastNumberOfNosMaybesRank
      ∨ a.bestScoreRank < b.bestScoreRank)

instance (a b : RankLabels) : Decidable (dominates a b) := by
  unfold dominates
  infer_instance

/-- C6, amended: an option with positive dominance rank shows that some
option of the input dominates another (all three component ranks ≤, one
strictly), though that option need not itself be dominated. -/
theorem claim6_suboptimal_has_domination {options : List EventOption}
    {responses : List Response} {m : JsMap String RankLabels}
    {id : String} {rl : RankLabels}
    (hm : labelResponses options responses = some m)
    (hid : mget m id = some rl) (hpos : 0 < rl.strictlySuperiorRank) :
    ∃ idu idv rlu rlv, mget m idu = some rlu ∧ mget m idv = some rlv
      ∧ dominates rlu rlv := by
  obtain ⟨hids, hrlf⟩ := (labelResponses_mget hm id rl).mp hid
  obtain ⟨hnm, hnos, hbs, hov, hss⟩ := rankLabelsFor_eq_some.mp hrlf
  obtain ⟨p, hpmem, hpid, hprank⟩ := findRank_mem hss
  have hppos : p.rank ≠ 0 := by
    rw [hprank]
    omega
  rw [strictlySuperiorList] at hpmem
  obtain ⟨a, b, ha, hb, hfn⟩ := exists_comp_ne_zero_of_rank_pos hpmem hppos
  rcases Option.isSome_iff_exists.mp
    (rankLabelsFor_isSome_of_mem options (cardOf responses) ha) with ⟨rlu, hrlu⟩
  rcases Option.isSome_iff_exists.mp
    (rankLabelsFor_isSome_of_mem options (cardOf responses) hb) with ⟨rlv, hrlv⟩
  obtain ⟨hnmU, hnosU, hbsU, hovU, hssU⟩ := rankLabelsFor_eq_some.mp hrlu
  obtain ⟨hnmV, hnosV, hbsV, hovV, hssV⟩ := rankLabelsFor_eq_some.mp hrlv
  have hmu : mget m a.id = some rlu :=
    (labelResponses_mget hm a.id rlu).mpr
      ⟨List.mem_map_of_mem (fun y => y.id) ha, hrlu⟩
  have hmv : mget m b.id = some rlv :=
    (labelResponses_mget hm b.id rlv).mpr
      ⟨List.mem_map_of_mem (fun y => y.id) hb, hrlv⟩
  simp only [strictlySuperiorComp] at hfn
  rw [hnosU, hnosV, hnmU, hnmV, hbsU, hbsV] at hfn
  simp only [Option.getD_some] at hfn
  split_ifs at hfn with hall hle hge
  · exact absurd rfl hfn
  · refine ⟨a.id, b.id, rlu, rlv, hmu, hmv, ?_, ?_, ?_, ?_⟩ <;> omega
  · refine ⟨b.id, a.id, rlv, rlu, hmv, hmu, ?_, ?_, ?_, ?_⟩ <;> omega
  · exact absurd rfl hfn

theorem claim6_witness :
    ∃ idu idv rlu rlv, mget exMap idu = some rlu ∧ mget exMap idv = some rlv
      ∧ dominates rlu rlv :=
  @claim6_suboptimal_has_domination exOptions exResponses exMap "B"
    ⟨1, 1, 2, 1, 1⟩ (by decide) (by decide) (by decide)

/-- C6, counterexample to the claim as stated: option C has dominance rank
1 > 0, yet neither of the two other options dominates it — its positive
rank comes from the comparable pair (A, B) earlier in the dominance-sorted
order, not from C itself being dominated. -/
theorem claim6_counterexample :
    labelResponses exOptions exResponses = some exMap
      ∧ mget exMap "C" = some ⟨2, 2, 0, 1, 1⟩
      ∧ 0 < ((⟨2, 2, 0, 1, 1⟩ : RankLabels)).strictlySuperiorRank
      ∧ exOptions.map (fun x => x.id) = ["A", "B", "C"]
      ∧ (∀ pair ∈ exMap, pair.1 ≠ "C" →
          ¬ dominates pair.2 ⟨2, 2, 0, 1, 1⟩) := by decide

/-! ### The overall aggregate weighs all components equally -/

/-- C1, amended: the overall ordering key is exactly
`Σ_i (i × N + rank_i)` over (best-score, fewest-nos-and-maybes, fewest-nos),
which equals `3 N + (sum of the three component ranks)`: each component rank
is at most N − 1, every component carries the same weight, and the key is
strictly monotone in the rank sum — not in the fewest-nos rank alone. -/
theorem claim1_overall_key_aggregate {options : List EventOption}
    {responses : List Response} {m : JsMap String RankLabels}
    {A B : String} {rla rlb : RankLabels}
    (hm : labelResponses options responses = some m)
    (hA : mget m A = some rla) (hB : mget m B = some rlb) :
    (∀ x ∈ options, x.id = A →
        overallKey options.length (bestScoreList options (cardOf responses))
          (leastNumberOfNosMaybesList options (cardOf responses))
          (leastNumberOfNosList options (cardOf responses)) x
        = some ((aggregateRankScore options.length rla.bestScoreRank
            rla.leastNumberOfNosMaybesRank rla.leastNumberOfNosRank : Nat) : Int))
      ∧ aggregateRankScore options.length rla.bestScoreRank
          rla.leastNumberOfNosMaybesRank rla.leastNumberOfNosRank
        = 3 * options.length + (rla.bestScoreRank
            + rla.leastNumberOfNosMaybesRank + rla.leastNumberOfNosRank)
      ∧ (rla.bestScoreRank ≤ options.length - 1
          ∧ rla.leastNumberOfNosMaybesRank ≤ options.length - 1
          ∧ rla.leastNumberOfNosRank ≤ options.length - 1)
      ∧ (rla.bestScoreRank + rla.leastNumberOfNosMaybesRank
            + rla.leastNumberOfNosRank
          < rlb.bestScoreRank + rlb.leastNumberOfNosMaybesRank
            + rlb.leastNumberOfNosRank →
          aggregateRankScore options.length rla.bestScoreRank
            rla.leastNumberOfNosMaybesRank rla.leastNumberOfNosRank
          < aggregateRankScore options.length rlb.bestScoreRank
            rlb.leastNumberOfNosMaybesRank rlb.leastNumberOfNosRank) := by
  obtain ⟨hAid, hrlfA⟩ := (labelResponses_mget hm A rla).mp hA
  obtain ⟨hnmA, hnosA, hbsA, hovA, hssA⟩ := rankLabelsFor_eq_some.mp hrlfA
  refine ⟨?_, by unfold aggregateRankScore; omega, ⟨?_, ?_, ?_⟩,
    by unfold aggregateRankScore; omega⟩
  · intro x _ hxid
    rw [overallKey, hxid, hbsA, hnmA, hnosA]
    simp [Option.getD_some]
  · obtain ⟨q, hq, _, hqrank⟩ := findRank_mem hbsA
    rw [bestScoreList, rankBySortOrder] at hq
    have := rank_lt_length_of_mem hq
    omega
  · obtain ⟨q, hq, _, hqrank⟩ := findRank_mem hnmA
    rw [leastNumberOfNosMaybesList, rankBySortOrder] at hq
    have := rank_lt_length_of_mem hq
    omega
  · obtain ⟨q, hq, _, hqrank⟩ := findRank_mem hnosA
    rw [leastNumberOfNosList, rankBySortOrder] at hq
    have := rank_lt_length_of_mem hq
    omega

theorem claim1_witness :
    (∀ x ∈ exOptions, x.id = "A" →
        overallKey exOptions.length (bestScoreList exOptions (cardOf exResponses))
          (leastNumberOfNosMaybesList exOptions (cardOf exResponses))
          (leastNumberOfNosList exOptions (cardOf exResponses)) x
        = some ((aggregateRankScore exOptions.length 1 0 0 : Nat) : Int))
      ∧ aggregateRankScore exOptions.length 1 0 0
        = 3 * exOptions.length + (1 + 0 + 0)
      ∧ ((1 : Nat) ≤ exOptions.length - 1 ∧ (0 : Nat) ≤ exOptions.length - 1
          ∧ (0 : Nat) ≤ exOptions.length - 1)
      ∧ ((1 : Nat) + 0 + 0 < 2 + 1 + 1 →
          aggregateRankScore exOptions.length 1 0 0
            < aggregateRankScore exOptions.length 2 1 1) :=
  @claim1_overall_key_aggregate exOptions exResponses exMap "A" "B"
    ⟨0, 0, 1, 0, 0⟩ ⟨1, 1, 2, 1, 1⟩ (by decide) (by decide) (by decide)

/-- Responses giving tallies A = {0: 2}, B = {−1: 1, 0: 1, 4: 2},
C = {−1: 2, 4: 1}: A beats B on fewest-nos but loses on the aggregate. -/
def c1Responses : List Response :=
  [⟨⟨none⟩, [⟨0, false, "A"⟩, ⟨-1, false, "B"⟩, ⟨-1, false, "C"⟩]⟩,
   ⟨⟨none⟩, [⟨0, false, "A"⟩, ⟨0, false, "B"⟩, ⟨-1, false, "C"⟩]⟩,
   ⟨⟨none⟩, [⟨4, false, "B"⟩, ⟨4, false, "C"⟩]⟩,
   ⟨⟨none⟩, [⟨4, false, "B"⟩]⟩]

/-- The rank map `labelResponses` computes on `exOptions`/`c1Responses`. -/
def c1Map : JsMap String RankLabels :=
  [("A", ⟨0, 0, 2, 1, 0⟩), ("B", ⟨1, 0, 0, 0, 0⟩), ("C", ⟨2, 0, 1, 2, 1⟩)]

/-- C1, counterexample to the claim as stated: option A has a strictly
smaller fewest-nos rank than option B (0 < 1), yet its aggregate key
(11 = 3·3 + 2) is not smaller than B's (10 = 3·3 + 1), and A's overall
rank is in fact strictly worse. -/
theorem claim1_counterexample :
    labelResponses exOptions c1Responses = some c1Map
      ∧ mget c1Map "A" = some ⟨0, 0, 2, 1, 0⟩
      ∧ mget c1Map "B" = some ⟨1, 0, 0, 0, 0⟩
      ∧ ((⟨0, 0, 2, 1, 0⟩ : RankLabels)).leastNumberOfNosRank
          < ((⟨1, 0, 0, 0, 0⟩ : RankLabels)).leastNumberOfNosRank
      ∧ ¬ (aggregateRankScore exOptions.length 2 0 0
          < aggregateRankScore exOptions.length 0 0 1)
      ∧ ((⟨1, 0, 0, 0, 0⟩ : RankLabels)).overallRank
          < ((⟨0, 0, 2, 1, 0⟩ : RankLabels)).overallRank := by decide


theorem cardStep_agree {K : String} {a b : JsMap String (JsMap Int Nat)}
    (hab : ∀ k, k ≠ K → mget a k = mget b k) (o : SelectedOption) :
    ∀ k, k ≠ K → mget (cardStep a o) k = mget (cardStep b o) k := by
  intro k hk
  by_cases ho : o.optionId = K
  · simp only [cardStep]
    rw [mget_mset_ne _ _ (fun e => hk (e.trans ho)),
      mget_mset_ne _ _ (fun e => hk (e.trans ho))]
    exact hab k hk
  · have hpref : mget a o.optionId = mget b o.optionId := hab o.optionId ho
    simp only [cardStep, hpref]
    by_cases hko : k = o.optionId
    · subst hko
      rw [mget_mset_self, mget_mset_self]
    · rw [mget_mset_ne _ _ hko, mget_mset_ne _ _ hko]
      exact hab k hk

theorem foldl_cardStep_agree {K : String} :
    ∀ (l : List SelectedOption) {a b : JsMap String (JsMap Int Nat)},
      (∀ k, k ≠ K → mget a k = mget b k) →
      ∀ k, k ≠ K → mget (l.foldl cardStep a) k = mget (l.foldl cardStep b) k := by
  intro l
  induction l with
  | nil => intro a b hab; exact hab
  | cons o t ih =>
    intro a b hab
    rw [List.foldl_cons, List.foldl_cons]
    exact ih (cardStep_agree hab o)

/-- Dropping one selection from the flattened selection list changes the
tally only at that selection's option id. -/
theorem card_skip_unknown {l1 l2 : List SelectedOption}
    {sel : SelectedOption} :
    ∀ k, k ≠ sel.optionId →
      mget (responsePreferenceCardianlity (l1 ++ sel :: l2)) k
        = mget (responsePreferenceCardianlity (l1 ++ l2)) k := by
  intro k hk
  rw [responsePreferenceCardianlity, responsePreferenceCardianlity,
    List.foldl_append, List.foldl_append, List.foldl_cons]
  refine foldl_cardStep_agree l2 ?_ k hk
  intro k' hk'
  simp only [cardStep]
  exact mget_mset_ne _ _ hk'

/-- C9: a Selected Option whose id matches no listed option has no effect
on the output, and the output map holds no entry for the unknown id. -/
theorem claim9_unknown_selection {options : List EventOption}
    {r1 r2 : List Response} {sel : SelectedOption}
    {l1 l2 : List SelectedOption}
    (h2 : allChosen r2 = l1 ++ sel :: l2) (h1 : allChosen r1 = l1 ++ l2)
    (hunk : sel.optionId ∉ options.map (fun x => x.id)) :
    labelResponses options r1 = labelResponses options r2
      ∧ ∀ m, labelResponses options r2 = some m →
          mget m sel.optionId = none := by
  constructor
  · apply labelResponses_congr
    intro x hx
    have hxne : x.id ≠ sel.optionId :=
      fun e => hunk (e ▸ List.mem_map_of_mem (fun y => y.id) hx)
    rw [cardOf, cardOf, h1, h2]
    exact (card_skip_unknown x.id hxne).symm
  · intro m hm
    rcases hmeq : mget m sel.optionId with _ | rl
    · rfl
    · exact absurd ((labelResponses_mget hm sel.optionId rl).mp hmeq).1 hunk

theorem claim9_witness :
    labelResponses [⟨"A", "d"⟩] [⟨⟨none⟩, [⟨1, false, "A"⟩]⟩]
        = labelResponses [⟨"A", "d"⟩]
            [⟨⟨none⟩, [⟨1, false, "A"⟩, ⟨2, false, "ZZZ"⟩]⟩]
      ∧ ∀ m, labelResponses [⟨"A", "d"⟩]
            [⟨⟨none⟩, [⟨1, false, "A"⟩, ⟨2, false, "ZZZ"⟩]⟩] = some m →
          mget m (SelectedOption.mk 2 false "ZZZ").optionId = none :=
  @claim9_unknown_selection [⟨"A", "d"⟩]
    [⟨⟨none⟩, [⟨1, false, "A"⟩]⟩]
    [⟨⟨none⟩, [⟨1, false, "A"⟩, ⟨2, false, "ZZZ"⟩]⟩]
    ⟨2, false, "ZZZ"⟩ [⟨1, false, "A"⟩] []
    (by decide) (by decide) (by decide)

/-! ### The uncertain flag has no influence -/

theorem sel_proj_eq {sa sb : List SelectedOption}
    (h : List.Forall₂
      (fun s t => s.preference = t.preference ∧ s.optionId = t.optionId)
      sa sb) :
    sa.map (fun s => (s.optionId, s.preference))
      = sb.map (fun s => (s.optionId, s.preference)) := by
  induction h with
  | nil => rfl
  | cons h1 _ ih =>
    simp only [List.map_cons, ih, h1.1, h1.2]

theorem allChosen_proj_eq {r1 r2 : List Response}
    (h : List.Forall₂ (fun a b => a.respondent = b.respondent
      ∧ List.Forall₂
          (fun s t => s.preference = t.preference ∧ s.optionId = t.optionId)
          a.selectedOptions b.selectedOptions) r1 r2) :
    (allChosen r1).map (fun s => (s.optionId, s.preference))
      = (allChosen r2).map (fun s => (s.optionId, s.preference)) := by
  induction h with
  | nil => rfl
  | cons h1 _ ih =>
    simp only [allChosen, List.flatMap_cons, List.map_append] at ih ⊢
    rw [sel_proj_eq h1.2, ih]

theorem foldl_cardStep_proj :
    ∀ (la lb : List SelectedOption),
      la.map (fun s => (s.optionId, s.preference))
        = lb.map (fun s => (s.optionId, s.preference)) →
      ∀ acc, la.foldl cardStep acc = lb.foldl cardStep acc := by
  intro la
  induction la with
  | nil =>
    intro lb h acc
    cases lb with
    | nil => rfl
    | cons b tb => simp at h
  | cons a ta ih =>
    intro lb h acc
    cases lb with
    | nil => simp at h
    | cons b tb =>
      simp only [List.map_cons, List.cons.injEq] at h
      obtain ⟨hab, ht⟩ := h
      injection hab with hid hpref
      rw [List.foldl_cons, List.foldl_cons]
      have hstep : cardStep acc a = cardStep acc b := by
        simp only [cardStep]
        rw [hid, hpref]
      rw [hstep]
      exact ih tb ht _

/-- C10: two inputs whose Selected Options agree on option id and
preference (the `uncertain` flags free to differ) produce identical
outputs. -/
theorem claim10_uncertain_no_influence (options : List EventOption)
    {r1 r2 : List Response}
    (h : List.Forall₂ (fun a b => a.respondent = b.respondent
      ∧ List.Forall₂
          (fun s t => s.preference = t.preference ∧ s.optionId = t.optionId)
          a.selectedOptions b.selectedOptions) r1 r2) :
    labelResponses options r1 = labelResponses options r2 := by
  have hcard : cardOf r1 = cardOf r2 := by
    rw [cardOf, cardOf, responsePreferenceCardianlity,
      responsePreferenceCardianlity]
    exact foldl_cardStep_proj (allChosen r1) (allChosen r2)
      (allChosen_proj_eq h) []
  simp only [labelResponses]
  rw [hcard]

theorem claim10_witness :
    labelResponses [⟨"A", "d"⟩] [⟨⟨none⟩, [⟨1, false, "A"⟩]⟩]
      = labelResponses [⟨"A", "d"⟩] [⟨⟨none⟩, [⟨1, true, "A"⟩]⟩] :=
  claim10_uncertain_no_influence [⟨"A", "d"⟩]
    (List.Forall₂.cons
      ⟨rfl, List.Forall₂.cons ⟨rfl, rfl⟩ List.Forall₂.nil⟩
      List.Forall₂.nil)

end Planner
